import Mathlib

/-!
A shallow embedding of pyscBUS (src/BUSlib.py): the nucleotide string codec
and the uncompressed BUS file container codec, together with theorems
checking the specification of the repository against these definitions.

Modelling conventions: bytes are natural numbers, byte streams are lists of
naturals, Python strings are Lean strings, and a raised Python exception
(struct.error, ValueError) is modelled by an Option-valued function
returning none.
-/

/- ------------------------------------------------------------------
   Nucleotide codec: stringToBinary / binaryToString
   ------------------------------------------------------------------ -/

/-- One Python single-character str.replace step: every occurrence of the
character c in the list is replaced by the character list r. -/
def replaceChar (c : Char) (r : List Char) : List Char → List Char
  | [] => []
  | a :: t => (if a = c then r else [a]) ++ replaceChar c r t

/-- The replace chain of stringToBinary in BUSlib.py, which sends A to 00,
C to 01, G to 10 and T to 11, applied in that order. -/
def toBitChars (l : List Char) : List Char :=
  replaceChar 'T' ['1', '1']
    (replaceChar 'G' ['1', '0']
      (replaceChar 'C' ['0', '1']
        (replaceChar 'A' ['0', '0'] l)))

/-- A single digit of a Python base-2 numeral: 0 or 1; any other character
makes int(bs, 2) raise ValueError. -/
def binDigit (c : Char) : Option Nat :=
  if c = '0' then some 0 else if c = '1' then some 1 else none

/-- Left-to-right accumulation of a base-2 numeral. -/
def parseBinAcc : Nat → List Char → Option Nat
  | acc, [] => some acc
  | acc, c :: t =>
    match binDigit c with
    | some d => parseBinAcc (2 * acc + d) t
    | none => none

/-- Models Python int(bs, 2) on outputs of the replace chain: raises
ValueError (none) on an empty numeral or on a character other than 0 or 1.
(Python additionally tolerates signs, spaces and underscores, which cannot
reach this call site with a different meaning.) -/
def parseBin (l : List Char) : Option Nat :=
  if l = [] then none else parseBinAcc 0 l

/-- stringToBinary from BUSlib.py: truncate the string to the requested
length, run the replace chain, and read the result as a base-2 integer
(the source's default for the length argument is 32; callers here always
pass it explicitly). -/
def stringToBinary (s : String) (len : Nat) : Option Nat :=
  parseBin (toBitChars (s.data.take len))

/-- The character the loop body of binaryToString picks for one 2-bit
group, mirroring the if chain with its initial N placeholder. -/
def nucCharOf (b : Nat) : Char :=
  if b = 0 then 'A'
  else if b = 1 then 'C'
  else if b = 2 then 'G'
  else if b = 3 then 'T'
  else 'N'

/-- The character list produced by the loop of binaryToString: position i
holds the 2-bit group of x at shift 2*(length-1-i). -/
def binChars (x : Nat) (len : Nat) : List Char :=
  (List.range len).map (fun i => nucCharOf ((x >>> (2 * (len - 1 - i))) &&& 3))

/-- binaryToString from BUSlib.py. -/
def binaryToString (x : Nat) (len : Nat) : String :=
  String.mk (binChars x len)

/- Proof helpers for the codec. -/

/-- Numeric value of one nucleotide character (proof helper; characters
outside the alphabet are given value 0 but never used that way). -/
def nucVal (c : Char) : Nat :=
  if c = 'C' then 1 else if c = 'G' then 2 else if c = 'T' then 3 else 0

/-- Accumulator form of the base-4 value of a nucleotide string. -/
def encAcc : Nat → List Char → Nat
  | acc, [] => acc
  | acc, c :: t => encAcc (4 * acc + nucVal c) t

/-- Membership in the nucleotide alphabet. -/
def isNuc (c : Char) : Prop :=
  c = 'A' ∨ c = 'C' ∨ c = 'G' ∨ c = 'T'

theorem replaceChar_append (c : Char) (r : List Char) (l₁ l₂ : List Char) :
    replaceChar c r (l₁ ++ l₂) = replaceChar c r l₁ ++ replaceChar c r l₂ := by
  induction l₁ with
  | nil => simp [replaceChar]
  | cons a t ih => simp [replaceChar, ih]

theorem toBitChars_append (l₁ l₂ : List Char) :
    toBitChars (l₁ ++ l₂) = toBitChars l₁ ++ toBitChars l₂ := by
  simp [toBitChars, replaceChar_append]

theorem toBitChars_cons (c : Char) (t : List Char) :
    toBitChars (c :: t) = toBitChars [c] ++ toBitChars t := by
  have h : c :: t = [c] ++ t := rfl
  rw [h, toBitChars_append]

theorem nucVal_le (c : Char) : nucVal c ≤ 3 := by
  unfold nucVal
  split_ifs <;> omega

theorem parseBinAcc_cons_nuc (c : Char) (hc : isNuc c) (t : List Char) (acc : Nat) :
    parseBinAcc acc (toBitChars (c :: t))
      = parseBinAcc (4 * acc + nucVal c) (toBitChars t) := by
  rcases hc with h | h | h | h <;> subst h
  · rw [toBitChars_cons, show toBitChars ['A'] = ['0', '0'] by decide]
    have h1 : parseBinAcc acc (['0', '0'] ++ toBitChars t)
        = parseBinAcc (2 * (2 * acc + 0) + 0) (toBitChars t) := by
      simp [parseBinAcc, binDigit]
    rw [h1]
    congr 1
    simp [nucVal]
    ring
  · rw [toBitChars_cons, show toBitChars ['C'] = ['0', '1'] by decide]
    have h1 : parseBinAcc acc (['0', '1'] ++ toBitChars t)
        = parseBinAcc (2 * (2 * acc + 0) + 1) (toBitChars t) := by
      simp [parseBinAcc, binDigit]
    rw [h1]
    congr 1
    simp [nucVal]
    ring
  · rw [toBitChars_cons, show toBitChars ['G'] = ['1', '0'] by decide]
    have h1 : parseBinAcc acc (['1', '0'] ++ toBitChars t)
        = parseBinAcc (2 * (2 * acc + 1) + 0) (toBitChars t) := by
      simp [parseBinAcc, binDigit]
    rw [h1]
    congr 1
    simp [nucVal]
    ring
  · rw [toBitChars_cons, show toBitChars ['T'] = ['1', '1'] by decide]
    have h1 : parseBinAcc acc (['1', '1'] ++ toBitChars t)
        = parseBinAcc (2 * (2 * acc + 1) + 1) (toBitChars t) := by
      simp [parseBinAcc, binDigit]
    rw [h1]
    congr 1
    simp [nucVal]
    ring

theorem parseBinAcc_toBitChars (l : List Char) (hl : ∀ c ∈ l, isNuc c) :
    ∀ acc, parseBinAcc acc (toBitChars l) = some (encAcc acc l) := by
  induction l with
  | nil => intro acc; simp [toBitChars, replaceChar, parseBinAcc, encAcc]
  | cons c t ih =>
    intro acc
    rw [parseBinAcc_cons_nuc c (hl c (List.mem_cons_self c t)) t acc, encAcc]
    exact ih (fun d hd => hl d (List.mem_cons_of_mem c hd)) _

theorem encAcc_eq (l : List Char) :
    ∀ acc, encAcc acc l = acc * 4 ^ l.length + encAcc 0 l := by
  induction l with
  | nil => intro acc; simp [encAcc]
  | cons c t ih =>
    intro acc
    have h2 : encAcc 0 (c :: t) = nucVal c * 4 ^ t.length + encAcc 0 t := by
      rw [encAcc, ih (4 * 0 + nucVal c)]
      ring
    rw [encAcc, ih (4 * acc + nucVal c), h2, List.length_cons, pow_succ]
    ring

theorem encAcc_lt (l : List Char) : encAcc 0 l < 4 ^ l.length := by
  induction l with
  | nil => simp [encAcc]
  | cons c t ih =>
    rw [encAcc, encAcc_eq]
    have hv : nucVal c ≤ 3 := nucVal_le c
    have h3 : (4 * 0 + nucVal c) * 4 ^ t.length ≤ 3 * 4 ^ t.length :=
      Nat.mul_le_mul_right _ (by omega)
    rw [List.length_cons, pow_succ]
    omega

instance (c : Char) : Decidable (isNuc c) := by
  unfold isNuc
  infer_instance

theorem replaceChar_length_le (c : Char) (r : List Char) (hr : 1 ≤ r.length) :
    ∀ l : List Char, l.length ≤ (replaceChar c r l).length := by
  intro l
  induction l with
  | nil => simp [replaceChar]
  | cons a t ih =>
    rw [replaceChar, List.length_append, List.length_cons]
    have h1 : 1 ≤ (if a = c then r else [a]).length := by
      split
      · exact hr
      · simp
    omega

theorem toBitChars_length_le (l : List Char) : l.length ≤ (toBitChars l).length := by
  unfold toBitChars
  have h1 := replaceChar_length_le 'A' ['0', '0'] (by simp) l
  have h2 := replaceChar_length_le 'C' ['0', '1'] (by simp)
    (replaceChar 'A' ['0', '0'] l)
  have h3 := replaceChar_length_le 'G' ['1', '0'] (by simp)
    (replaceChar 'C' ['0', '1'] (replaceChar 'A' ['0', '0'] l))
  have h4 := replaceChar_length_le 'T' ['1', '1'] (by simp)
    (replaceChar 'G' ['1', '0'] (replaceChar 'C' ['0', '1'] (replaceChar 'A' ['0', '0'] l)))
  omega

theorem toBitChars_ne_nil (l : List Char) (hl : l ≠ []) : toBitChars l ≠ [] := by
  intro h
  apply hl
  have hle := toBitChars_length_le l
  rw [h] at hle
  simp only [List.length_nil, Nat.le_zero] at hle
  exact List.length_eq_zero.mp hle

theorem shift_twobits (y j : Nat) : (y >>> (2 * j)) &&& 3 = y / 4 ^ j % 4 := by
  have h := Nat.and_pow_two_sub_one_eq_mod (y >>> (2 * j)) 2
  norm_num at h
  rw [h, Nat.shiftRight_eq_div_pow]
  have h2 : (2 : Nat) ^ (2 * j) = 4 ^ j := by
    rw [pow_mul]
    norm_num
  rw [h2]

theorem digit_mod (x n j : Nat) (h : j < n) :
    x % 4 ^ n / 4 ^ j % 4 = x / 4 ^ j % 4 := by
  obtain ⟨q, hq⟩ : ∃ q, x = 4 ^ n * q + x % 4 ^ n :=
    ⟨x / 4 ^ n, by rw [Nat.div_add_mod]⟩
  conv_rhs => rw [hq]
  have hpow : (4 : Nat) ^ n = 4 ^ j * 4 ^ (n - j) := by
    rw [← pow_add]
    congr 1
    omega
  rw [hpow, mul_assoc, Nat.mul_add_div (by positivity)]
  obtain ⟨k, hk⟩ : ∃ k, n - j = k + 1 := ⟨n - j - 1, by omega⟩
  rw [hk, pow_succ]
  rw [show (4 : Nat) ^ k * 4 * q = 4 * (4 ^ k * q) by ring]
  rw [Nat.mul_add_mod]

theorem binChars_length (x n : Nat) : (binChars x n).length = n := by
  simp [binChars]

theorem binChars_mod (x n : Nat) : binChars (x % 4 ^ n) n = binChars x n := by
  unfold binChars
  apply List.map_congr_left
  intro i hi
  have hin : i < n := List.mem_range.mp hi
  rw [shift_twobits, shift_twobits, digit_mod x n (n - 1 - i) (by omega)]

theorem nucCharOf_isNuc (v : Nat) (h : v < 4) : isNuc (nucCharOf v) := by
  have h4 : v = 0 ∨ v = 1 ∨ v = 2 ∨ v = 3 := by omega
  rcases h4 with h | h | h | h <;> subst h <;> decide

theorem nucVal_nucCharOf (v : Nat) (h : v < 4) : nucVal (nucCharOf v) = v := by
  have h4 : v = 0 ∨ v = 1 ∨ v = 2 ∨ v = 3 := by omega
  rcases h4 with h | h | h | h <;> subst h <;> decide

theorem nucCharOf_nucVal (c : Char) (hc : isNuc c) : nucCharOf (nucVal c) = c := by
  rcases hc with h | h | h | h <;> subst h <;> decide

theorem binChars_nuc (x n : Nat) : ∀ c ∈ binChars x n, isNuc c := by
  intro c hc
  simp only [binChars, List.mem_map, List.mem_range] at hc
  obtain ⟨i, _, rfl⟩ := hc
  rw [shift_twobits]
  exact nucCharOf_isNuc _ (Nat.mod_lt _ (by norm_num))

theorem binChars_succ (x n : Nat) :
    binChars x (n + 1) = nucCharOf ((x >>> (2 * n)) &&& 3) :: binChars x n := by
  simp only [binChars, List.range_succ_eq_map, List.map_cons, List.map_map,
    Nat.add_sub_cancel, Nat.sub_zero, Function.comp]
  congr 1
  apply List.map_congr_left
  intro i _
  simp only [Function.comp_apply]
  have h : n - Nat.succ i = n - 1 - i := by omega
  rw [h]

theorem encAcc_binChars (x n : Nat) : encAcc 0 (binChars x n) = x % 4 ^ n := by
  induction n with
  | zero => simp [binChars, encAcc, Nat.mod_one]
  | succ n ih =>
    rw [binChars_succ, encAcc, encAcc_eq, binChars_length, shift_twobits]
    rw [nucVal_nucCharOf _ (Nat.mod_lt _ (by norm_num)), ih]
    rw [pow_succ, Nat.mod_mul]
    ring

theorem binChars_encAcc (l : List Char) (hl : ∀ c ∈ l, isNuc c) :
    binChars (encAcc 0 l) l.length = l := by
  induction l with
  | nil => simp [binChars]
  | cons c t ih =>
    have hc := hl c (List.mem_cons_self c t)
    have ht : ∀ d ∈ t, isNuc d := fun d hd => hl d (List.mem_cons_of_mem c hd)
    have he : encAcc 0 (c :: t) = nucVal c * 4 ^ t.length + encAcc 0 t := by
      rw [encAcc, encAcc_eq]
      ring
    rw [List.length_cons, binChars_succ]
    congr 1
    · rw [shift_twobits, he, mul_comm (nucVal c) _, Nat.mul_add_div (by positivity),
          Nat.div_eq_of_lt (encAcc_lt t)]
      rw [Nat.add_zero, Nat.mod_eq_of_lt (by have := nucVal_le c; omega)]
      exact nucCharOf_nucVal c hc
    · rw [← binChars_mod, he, mul_comm (nucVal c) _, Nat.mul_add_mod,
          Nat.mod_eq_of_lt (encAcc_lt t)]
      exact ih ht

/- ------------------------------------------------------------------
   Claims about the nucleotide codec
   ------------------------------------------------------------------ -/

/-- Claim C2, counterexample to the stated range: at n = 0 the encoding of
any string is int of the empty numeral, which raises ValueError, so the
decode of the encode is not the empty prefix. -/
theorem roundtrip_zero_fails :
    (stringToBinary ("A") 0).map (fun v => binaryToString v 0)
      ≠ some (String.mk []) := by
  decide

/-- Claim C2 (amended: 1 ≤ n instead of 0 ≤ n): for every string s over
the alphabet A,C,G,T and every n with 1 ≤ n ≤ 32 and len(s) ≥ n, decoding
the encoding of s at length n returns the first n characters of s. -/
theorem decode_encode_roundtrip (s : String) (n : Nat)
    (h1 : 1 ≤ n) (h32 : n ≤ 32) (hn : n ≤ s.length)
    (hs : ∀ c ∈ s.data, isNuc c) :
    (stringToBinary s n).map (fun v => binaryToString v n)
      = some (String.mk (s.data.take n)) := by
  have hnuc : ∀ c ∈ s.data.take n, isNuc c :=
    fun c hc => hs c (List.take_subset n s.data hc)
  have hsl : s.length = s.data.length := rfl
  have hlen : (s.data.take n).length = n := by
    rw [List.length_take]
    omega
  have hne : s.data.take n ≠ [] := by
    intro h
    rw [h] at hlen
    simp at hlen
    omega
  have hparse : stringToBinary s n = some (encAcc 0 (s.data.take n)) := by
    rw [stringToBinary, parseBin, if_neg (toBitChars_ne_nil _ hne),
      parseBinAcc_toBitChars _ hnuc]
  rw [hparse, Option.map_some']
  congr 1
  rw [binaryToString]
  congr 1
  have hb := binChars_encAcc (s.data.take n) hnuc
  rw [hlen] at hb
  exact hb

/-- Concrete check of the amended claim C2 at s = ACGT, n = 2. -/
theorem decode_encode_roundtrip_check :
    (stringToBinary ("ACGT") 2).map (fun v => binaryToString v 2)
      = some (String.mk ((("ACGT") : String).data.take 2)) :=
  decode_encode_roundtrip ("ACGT") 2 (by decide) (by decide) (by decide) (by decide)

/-- Claim C3, counterexample to the stated range: at n = 0, x = 0 < 4^0
the encode of the decode raises ValueError instead of returning 0. -/
theorem encode_decode_zero_fails :
    stringToBinary (binaryToString 0 0) 0 ≠ some 0 := by
  decide

/-- Claim C3 (amended: 1 ≤ n added): for 1 ≤ n and 0 ≤ x < 4^n, encoding
the decoding of x at length n returns x. -/
theorem encode_decode_roundtrip (n x : Nat) (h1 : 1 ≤ n) (hx : x < 4 ^ n) :
    stringToBinary (binaryToString x n) n = some x := by
  rw [binaryToString, stringToBinary]
  have hdata : (String.mk (binChars x n)).data = binChars x n := rfl
  rw [hdata, List.take_of_length_le (le_of_eq (binChars_length x n))]
  have hne : binChars x n ≠ [] := by
    intro h
    have := binChars_length x n
    rw [h] at this
    simp at this
    omega
  rw [parseBin, if_neg (toBitChars_ne_nil _ hne),
    parseBinAcc_toBitChars _ (binChars_nuc x n), encAcc_binChars,
    Nat.mod_eq_of_lt hx]

/-- Concrete check of the amended claim C3 at n = 2, x = 7. -/
theorem encode_decode_roundtrip_check :
    stringToBinary (binaryToString 7 2) 2 = some 7 :=
  encode_decode_roundtrip 2 7 (by decide) (by decide)

/-- Claim C10: binaryToString inspects only the low 2n bits of its
argument, and its result has exactly n characters, all in {A,C,G,T}. -/
theorem binaryToString_mod_and_alphabet (x n : Nat) :
    binaryToString x n = binaryToString (x % 4 ^ n) n
      ∧ (binaryToString x n).length = n
      ∧ ∀ c ∈ (binaryToString x n).data, isNuc c := by
  refine ⟨?_, ?_, ?_⟩
  · rw [binaryToString, binaryToString, binChars_mod]
  · exact binChars_length x n
  · exact binChars_nuc x n

/-- Claim C8, counterexample: for s = A and n = 2 (len(s) < n) the encode
operation silently succeeds with value 0 instead of failing; the source
has no InvalidLength error at all. -/
theorem short_string_encodes :
    (("A") : String).length < 2 ∧ stringToBinary ("A") 2 = some 0 := by
  decide

/-- Claim C8 (amended): when len(s) < n, stringToBinary silently proceeds
and encodes only the len(s) available symbols: the call is identical to
encoding at the true length of s; no InvalidLength error is raised. -/
theorem short_string_same_as_own_length (s : String) (n : Nat)
    (h : s.length < n) :
    stringToBinary s n = stringToBinary s s.length := by
  have hsl : s.length = s.data.length := rfl
  rw [stringToBinary, stringToBinary]
  rw [List.take_of_length_le (by omega), hsl, List.take_length]

/-- Concrete check of the amended claim C8 at s = A, n = 2. -/
theorem short_string_same_as_own_length_check :
    stringToBinary ("A") 2 = stringToBinary ("A") (("A") : String).length :=
  short_string_same_as_own_length ("A") 2 (by decide)

/- ------------------------------------------------------------------
   BUS container: the BUSFIle class (name kept verbatim from the source)
   ------------------------------------------------------------------ -/

/-- A stored record value: the (umi, ec, count, flag) tuple kept per
barcode in the bcd dict. -/
abbrev Tup := Nat × Nat × Nat × Nat

/-- The format attribute: the empty string a fresh instance starts with,
the string BUS after a recognized magic, or the raw magic bytes of an
unrecognized file. -/
inductive Format where
  | blank : Format
  | bus : Format
  | raw : List Nat → Format
deriving DecidableEq

/-- The BUSFIle container state: the attributes set in init. The
in_file_path and out_file_path bookkeeping attributes are not modelled.
The bcd dict is modelled as an association list in insertion order,
which is exactly the iteration order of a Python dict. -/
structure BUSFIle where
  text : List Nat
  bcd : List (Nat × List Tup)
  version : Nat
  bclen : Nat
  umilen : Nat
  textlen : Nat
  n_entries : Nat
  format : Format
deriving DecidableEq

/-- The freshly constructed container (the initial text is the empty
string, modelled as the empty byte list). -/
def BUSFIle.init : BUSFIle :=
  { text := [], bcd := [], version := 0, bclen := 0, umilen := 0,
    textlen := 0, n_entries := 0, format := Format.blank }

/-- Little-endian encoding of x on w bytes, as produced by struct.pack. -/
def toLE (w x : Nat) : List Nat :=
  (List.range w).map (fun i => x / 256 ^ i % 256)

/-- Little-endian decoding of a byte list, as done by struct.unpack. -/
def fromLE : List Nat → Nat
  | [] => 0
  | b :: t => b + 256 * fromLE t

/-- The 4-byte magic tag: the bytes of BUS followed by a zero byte. -/
def busMagic : List Nat := [66, 85, 83, 0]

/-- The dict mutation of parseBUS: append the tuple to the list of an
existing barcode key (keeping the key's position), or, on KeyError, bind
the key to a fresh singleton list, which places it last in insertion
order. -/
def bcdInsert : List (Nat × List Tup) → Nat → Tup → List (Nat × List Tup)
  | [], bc, t => [(bc, [t])]
  | (k, v) :: rest, bc, t =>
    if k = bc then (k, v ++ [t]) :: rest else (k, v) :: bcdInsert rest bc t

/-- One loop iteration of BUSFIle.parseBUS on an exact 32-byte block:
struct.unpack QQIIII little-endian at offsets 0, 8, 16, 20, 24 (the
padding word at 28 is discarded), one entry-counter increment, and the
dict insertion. The source increments the counter when it reads the next
block and inserts afterwards; bundling the increment with the insertion
gives the same totals since unpacking is pure. -/
def busStep (st : BUSFIle) (b : List Nat) : BUSFIle :=
  { st with
    n_entries := st.n_entries + 1,
    bcd := bcdInsert st.bcd (fromLE (b.take 8))
      (fromLE ((b.drop 8).take 8), fromLE ((b.drop 16).take 4),
       fromLE ((b.drop 20).take 4), fromLE ((b.drop 24).take 4)) }

/-- The read loop of BUSFIle.parseBUS over the remaining byte stream,
with an explicit iteration bound (each iteration consumes 32 bytes, so
the stream length is always a sufficient bound; parseBUS passes exactly
that, which makes the zero-bound arm unreachable). An empty read ends
the loop; a non-empty read of fewer than 32 bytes makes struct.unpack
raise struct.error, modelled as none. -/
def parseBUSLoop : Nat → BUSFIle → List Nat → Option BUSFIle
  | _, st, [] => some st
  | 0, _, _ => none
  | fuel + 1, st, inf =>
    if 32 ≤ inf.length then
      parseBUSLoop fuel (busStep st (inf.take 32)) (inf.drop 32)
    else none

/-- BUSFIle.parseBUS from BUSlib.py: the initial read is counted by the
entry counter even when it comes back empty, then the loop runs. -/
def BUSFIle.parseBUS (st : BUSFIle) (inf : List Nat) : Option BUSFIle :=
  parseBUSLoop inf.length { st with n_entries := st.n_entries + 1 } inf

/-- BUSFIle.parseHeader from BUSlib.py, returning the updated container
and the remaining stream. It reads the 4-byte magic (struct.error if the
file is shorter); on a mismatch it records the raw magic bytes in the
format attribute and stops; on a match it reads the four u32 fields and
then exactly textlen bytes of text (struct.error if the stream is too
short). The version-mismatch warning is a non-fatal side effect and has
no bearing on the returned state. -/
def BUSFIle.parseHeader (st : BUSFIle) (inf : List Nat) :
    Option (BUSFIle × List Nat) :=
  if inf.length < 4 then none
  else if inf.take 4 = busMagic then
    if (inf.drop 4).length < 16 then none
    else if ((inf.drop 4).drop 16).length
        < fromLE (((inf.drop 4).drop 12).take 4) then none
    else some
      ({ st with format := Format.bus,
                 version := fromLE ((inf.drop 4).take 4),
                 bclen := fromLE (((inf.drop 4).drop 4).take 4),
                 umilen := fromLE (((inf.drop 4).drop 8).take 4),
                 textlen := fromLE (((inf.drop 4).drop 12).take 4),
                 text := ((inf.drop 4).drop 16).take
                   (fromLE (((inf.drop 4).drop 12).take 4)) },
        ((inf.drop 4).drop 16).drop (fromLE (((inf.drop 4).drop 12).take 4)))
  else some ({ st with format := Format.raw (inf.take 4) }, inf.drop 4)

/-- BUSFIle.read from BUSlib.py: parse the header and, when the format
is the recognized BUS tag, parse the body; any other format only prints
a message and the instance is returned as is. -/
def BUSFIle.read (file : List Nat) : Option BUSFIle :=
  match BUSFIle.init.parseHeader file with
  | none => none
  | some (st, rest) =>
    if st.format = Format.bus then st.parseBUS rest else some st

/-- BUSFIle.writeHeader from BUSlib.py: the magic tag, then the version,
bclen and umilen attributes and the byte length of the text recomputed
from the text itself (not the stored textlen attribute), each packed as
little-endian u32, then the text bytes verbatim. struct.pack raises
struct.error when a field does not fit in u32. -/
def BUSFIle.writeHeader (st : BUSFIle) : Option (List Nat) :=
  if st.version < 2 ^ 32 ∧ st.bclen < 2 ^ 32 ∧ st.umilen < 2 ^ 32
      ∧ st.text.length < 2 ^ 32 then
    some (busMagic ++ toLE 4 st.version ++ toLE 4 st.bclen
      ++ toLE 4 st.umilen ++ toLE 4 st.text.length ++ st.text)
  else none

/-- One struct.pack QQIIII call of BUSFIle.writeBUS: the 32-byte block of
one record with a zero padding word; struct.error when a value is out of
range for its field. -/
def packRecord (bc : Nat) (t : Tup) : Option (List Nat) :=
  if bc < 2 ^ 64 ∧ t.1 < 2 ^ 64 ∧ t.2.1 < 2 ^ 32 ∧ t.2.2.1 < 2 ^ 32
      ∧ t.2.2.2 < 2 ^ 32 then
    some (toLE 8 bc ++ toLE 8 t.1 ++ toLE 4 t.2.1 ++ toLE 4 t.2.2.1
      ++ toLE 4 t.2.2.2 ++ toLE 4 0)
  else none

/-- The inner loop of BUSFIle.writeBUS over one barcode's tuples. -/
def writeRecords (bc : Nat) : List Tup → Option (List Nat)
  | [] => some []
  | t :: ts => do
    let b ← packRecord bc t
    let r ← writeRecords bc ts
    pure (b ++ r)

/-- The outer loop of BUSFIle.writeBUS over the grouped map in its
insertion order (the sort_key parameter defaults to None and the sorted
branch is unimplemented in the source). -/
def writeBody : List (Nat × List Tup) → Option (List Nat)
  | [] => some []
  | (bc, ts) :: rest => do
    let a ← writeRecords bc ts
    let b ← writeBody rest
    pure (a ++ b)

/-- BUSFIle.writeBUS from BUSlib.py with the default sort_key of None. -/
def BUSFIle.writeBUS (st : BUSFIle) : Option (List Nat) :=
  writeBody st.bcd

/-- BUSFIle.write from BUSlib.py with its default BUS format argument:
header bytes then body bytes. -/
def BUSFIle.write (st : BUSFIle) : Option (List Nat) := do
  let h ← st.writeHeader
  let b ← st.writeBUS
  pure (h ++ b)

/- Proof helpers for the container. -/

/-- The 32-byte wire image of one record (proof helper). -/
def packBytes (bc : Nat) (t : Tup) : List Nat :=
  toLE 8 bc ++ toLE 8 t.1 ++ toLE 4 t.2.1 ++ toLE 4 t.2.2.1
    ++ toLE 4 t.2.2.2 ++ toLE 4 0

/-- Concatenated wire image of a stream of records (proof helper). -/
def packStream : List (Nat × Tup) → List Nat
  | [] => []
  | p :: ps => packBytes p.1 p.2 ++ packStream ps

/-- The (barcode, tuple) pairs listed by the write loops, in write
order (proof helper). -/
def pairsOf : List (Nat × List Tup) → List (Nat × Tup)
  | [] => []
  | (bc, ts) :: rest => ts.map (fun t => (bc, t)) ++ pairsOf rest

/-- Left fold of dict insertions (proof helper). -/
def insertAll (acc : List (Nat × List Tup)) (ps : List (Nat × Tup)) :
    List (Nat × List Tup) :=
  ps.foldl (fun b p => bcdInsert b p.1 p.2) acc

/-- dict lookup with an empty default (proof helper). -/
def bcdValue : List (Nat × List Tup) → Nat → List Tup
  | [], _ => []
  | (k, v) :: rest, bc => if k = bc then v else bcdValue rest bc

/-- The range constraints struct.pack imposes on one (barcode, tuple)
pair. -/
def TupOk (p : Nat × Tup) : Prop :=
  p.1 < 2 ^ 64 ∧ p.2.1 < 2 ^ 64 ∧ p.2.2.1 < 2 ^ 32 ∧ p.2.2.2.1 < 2 ^ 32
    ∧ p.2.2.2.2 < 2 ^ 32

instance (p : Nat × Tup) : Decidable (TupOk p) := by
  unfold TupOk
  infer_instance

theorem toLE_length (w x : Nat) : (toLE w x).length = w := by
  simp [toLE]

theorem toLE_succ (w x : Nat) : toLE (w + 1) x = x % 256 :: toLE w (x / 256) := by
  simp only [toLE, List.range_succ_eq_map, List.map_cons, List.map_map,
    pow_zero, Nat.div_one]
  congr 1
  apply List.map_congr_left
  intro i _
  simp only [Function.comp_apply]
  rw [Nat.div_div_eq_div_mul, ← pow_succ']

theorem fromLE_toLE (w x : Nat) (h : x < 256 ^ w) : fromLE (toLE w x) = x := by
  induction w generalizing x with
  | zero =>
    rw [pow_zero] at h
    have hx : x = 0 := by omega
    subst hx
    decide
  | succ w ih =>
    rw [toLE_succ, fromLE]
    have hdiv : x / 256 < 256 ^ w := by
      rw [pow_succ'] at h
      exact Nat.div_lt_of_lt_mul h
    rw [ih _ hdiv, Nat.mod_add_div]

theorem take_append_len {l₁ l₂ : List Nat} {w : Nat} (h : l₁.length = w) :
    (l₁ ++ l₂).take w = l₁ :=
  List.take_left' h

theorem drop_append_len {l₁ l₂ : List Nat} {w : Nat} (h : l₁.length = w) :
    (l₁ ++ l₂).drop w = l₂ :=
  List.drop_left' h

theorem packBytes_length (bc : Nat) (t : Tup) : (packBytes bc t).length = 32 := by
  simp [packBytes, toLE_length]

theorem pow_256_8 : (256 : Nat) ^ 8 = 2 ^ 64 := by norm_num

theorem pow_256_4 : (256 : Nat) ^ 4 = 2 ^ 32 := by norm_num

theorem busStep_packBytes (st : BUSFIle) (p : Nat × Tup) (hp : TupOk p) :
    busStep st (packBytes p.1 p.2)
      = { st with n_entries := st.n_entries + 1,
                  bcd := bcdInsert st.bcd p.1 p.2 } := by
  obtain ⟨bc, umi, ec, cnt, flag⟩ := p
  obtain ⟨h1, h2, h3, h4, h5⟩ := hp
  simp only at h1 h2 h3 h4 h5
  unfold busStep packBytes
  dsimp only
  simp only [List.append_assoc]
  have e0 : ((toLE 8 bc ++ (toLE 8 umi ++ (toLE 4 ec ++ (toLE 4 cnt
      ++ (toLE 4 flag ++ toLE 4 0)))))).take 8 = toLE 8 bc :=
    take_append_len (toLE_length 8 bc)
  have e1 : ((toLE 8 bc ++ (toLE 8 umi ++ (toLE 4 ec ++ (toLE 4 cnt
      ++ (toLE 4 flag ++ toLE 4 0)))))).drop 8
      = toLE 8 umi ++ (toLE 4 ec ++ (toLE 4 cnt ++ (toLE 4 flag ++ toLE 4 0))) :=
    drop_append_len (toLE_length 8 bc)
  have e2 : (toLE 8 umi ++ (toLE 4 ec ++ (toLE 4 cnt ++ (toLE 4 flag
      ++ toLE 4 0)))).take 8 = toLE 8 umi :=
    take_append_len (toLE_length 8 umi)
  have e3 : (toLE 8 umi ++ (toLE 4 ec ++ (toLE 4 cnt ++ (toLE 4 flag
      ++ toLE 4 0)))).drop 8
      = toLE 4 ec ++ (toLE 4 cnt ++ (toLE 4 flag ++ toLE 4 0)) :=
    drop_append_len (toLE_length 8 umi)
  have e16 : ((toLE 8 bc ++ (toLE 8 umi ++ (toLE 4 ec ++ (toLE 4 cnt
      ++ (toLE 4 flag ++ toLE 4 0)))))).drop 16
      = toLE 4 ec ++ (toLE 4 cnt ++ (toLE 4 flag ++ toLE 4 0)) := by
    rw [show (16 : Nat) = 8 + 8 from rfl, ← List.drop_drop, e1, e3]
  have e4 : (toLE 4 ec ++ (toLE 4 cnt ++ (toLE 4 flag ++ toLE 4 0))).take 4
      = toLE 4 ec := take_append_len (toLE_length 4 ec)
  have e5 : (toLE 4 ec ++ (toLE 4 cnt ++ (toLE 4 flag ++ toLE 4 0))).drop 4
      = toLE 4 cnt ++ (toLE 4 flag ++ toLE 4 0) :=
    drop_append_len (toLE_length 4 ec)
  have e20 : ((toLE 8 bc ++ (toLE 8 umi ++ (toLE 4 ec ++ (toLE 4 cnt
      ++ (toLE 4 flag ++ toLE 4 0)))))).drop 20
      = toLE 4 cnt ++ (toLE 4 flag ++ toLE 4 0) := by
    rw [show (20 : Nat) = 16 + 4 from rfl, ← List.drop_drop, e16, e5]
  have e6 : (toLE 4 cnt ++ (toLE 4 flag ++ toLE 4 0)).take 4 = toLE 4 cnt :=
    take_append_len (toLE_length 4 cnt)
  have e7 : (toLE 4 cnt ++ (toLE 4 flag ++ toLE 4 0)).drop 4
      = toLE 4 flag ++ toLE 4 0 := drop_append_len (toLE_length 4 cnt)
  have e24 : ((toLE 8 bc ++ (toLE 8 umi ++ (toLE 4 ec ++ (toLE 4 cnt
      ++ (toLE 4 flag ++ toLE 4 0)))))).drop 24
      = toLE 4 flag ++ toLE 4 0 := by
    rw [show (24 : Nat) = 20 + 4 from rfl, ← List.drop_drop, e20, e7]
  have e8 : (toLE 4 flag ++ toLE 4 0).take 4 = toLE 4 flag :=
    take_append_len (toLE_length 4 flag)
  rw [e0, e1, e2, e16, e4, e20, e6, e24, e8]
  rw [fromLE_toLE 8 bc (by rw [pow_256_8]; exact h1),
      fromLE_toLE 8 umi (by rw [pow_256_8]; exact h2),
      fromLE_toLE 4 ec (by rw [pow_256_4]; exact h3),
      fromLE_toLE 4 cnt (by rw [pow_256_4]; exact h4),
      fromLE_toLE 4 flag (by rw [pow_256_4]; exact h5)]

theorem parseBUSLoop_nil (fuel : Nat) (st : BUSFIle) :
    parseBUSLoop fuel st [] = some st := by
  cases fuel <;> rfl

theorem parseBUSLoop_ne_nil (fuel : Nat) (st : BUSFIle) (l : List Nat)
    (hl : l ≠ []) :
    parseBUSLoop (fuel + 1) st l
      = if 32 ≤ l.length then
          parseBUSLoop fuel (busStep st (l.take 32)) (l.drop 32)
        else none := by
  cases l with
  | nil => exact absurd rfl hl
  | cons a xs => rfl

theorem packStream_length (ps : List (Nat × Tup)) :
    (packStream ps).length = 32 * ps.length := by
  induction ps with
  | nil => rfl
  | cons p ps ih =>
    rw [packStream, List.length_append, packBytes_length, ih, List.length_cons]
    ring

theorem packStream_append (l₁ l₂ : List (Nat × Tup)) :
    packStream (l₁ ++ l₂) = packStream l₁ ++ packStream l₂ := by
  induction l₁ with
  | nil => rfl
  | cons p ps ih => simp [packStream, ih]

theorem parseBUSLoop_packStream (ps : List (Nat × Tup)) :
    ∀ fuel st, (∀ p ∈ ps, TupOk p) → (packStream ps).length ≤ fuel →
      parseBUSLoop fuel st (packStream ps)
        = some { st with n_entries := st.n_entries + ps.length,
                         bcd := insertAll st.bcd ps } := by
  induction ps with
  | nil =>
    intro fuel st _ _
    rw [packStream, parseBUSLoop_nil]
    rfl
  | cons p ps ih =>
    intro fuel st hok hlen
    have hp32 : (packBytes p.1 p.2).length = 32 := packBytes_length p.1 p.2
    have hlen2 : (packStream (p :: ps)).length = 32 + (packStream ps).length := by
      rw [packStream, List.length_append, hp32]
    have hne : packStream (p :: ps) ≠ [] := by
      intro h
      rw [h] at hlen2
      simp only [List.length_nil] at hlen2
      omega
    cases fuel with
    | zero =>
      exfalso
      omega
    | succ fuel =>
      rw [parseBUSLoop_ne_nil fuel _ _ hne, if_pos (by omega)]
      rw [packStream, take_append_len hp32, drop_append_len hp32]
      rw [busStep_packBytes st p (hok p (List.mem_cons_self p ps))]
      rw [ih fuel _ (fun q hq => hok q (List.mem_cons_of_mem p hq)) (by omega)]
      have harith : st.n_entries + 1 + ps.length = st.n_entries + (p :: ps).length := by
        rw [List.length_cons]
        omega
      have hbcd : insertAll (bcdInsert st.bcd p.1 p.2) ps
          = insertAll st.bcd (p :: ps) := rfl
      congr 1
      rw [← harith, ← hbcd]

theorem parseBUS_packStream (st : BUSFIle) (ps : List (Nat × Tup))
    (hok : ∀ p ∈ ps, TupOk p) :
    st.parseBUS (packStream ps)
      = some { st with n_entries := st.n_entries + 1 + ps.length,
                       bcd := insertAll st.bcd ps } := by
  rw [BUSFIle.parseBUS, parseBUSLoop_packStream ps _ _ hok (le_refl _)]

theorem parseBUSLoop_mod32 :
    ∀ fuel (inf : List Nat) (st : BUSFIle), inf.length ≤ fuel →
      (inf.length % 32 ≠ 0 → parseBUSLoop fuel st inf = none)
        ∧ (inf.length % 32 = 0 → ∃ st2, parseBUSLoop fuel st inf = some st2) := by
  intro fuel
  induction fuel with
  | zero =>
    intro inf st hlen
    cases inf with
    | nil => exact ⟨fun h => absurd rfl h, fun _ => ⟨st, rfl⟩⟩
    | cons a xs => simp at hlen
  | succ fuel ih =>
    intro inf st hlen
    cases hinf : inf with
    | nil => exact ⟨fun h => absurd rfl h, fun _ => ⟨st, rfl⟩⟩
    | cons a xs =>
      rw [← hinf]
      have hne : inf ≠ [] := by rw [hinf]; intro h; cases h
      have hpos : 0 < inf.length := by rw [hinf]; simp
      rw [parseBUSLoop_ne_nil fuel st inf hne]
      by_cases h32 : 32 ≤ inf.length
      · rw [if_pos h32]
        have hdl : (inf.drop 32).length = inf.length - 32 := by
          rw [List.length_drop]
        have hmod : (inf.drop 32).length % 32 = inf.length % 32 := by
          rw [hdl, ← Nat.mod_eq_sub_mod h32]
        obtain ⟨ha, hb⟩ := ih (inf.drop 32) (busStep st (inf.take 32)) (by rw [hdl]; omega)
        constructor
        · intro h
          exact ha (by rw [hmod]; exact h)
        · intro h
          exact hb (by rw [hmod]; exact h)
      · rw [if_neg h32]
        constructor
        · intro _
          rfl
        · intro h
          exfalso
          rw [Nat.mod_eq_of_lt (by omega)] at h
          omega

theorem bcdInsert_new (bc : Nat) (t : Tup) :
    ∀ acc : List (Nat × List Tup), (∀ e ∈ acc, e.1 ≠ bc) →
      bcdInsert acc bc t = acc ++ [(bc, [t])] := by
  intro acc
  induction acc with
  | nil => intro _; rfl
  | cons e rest ih =>
    intro h
    obtain ⟨k, v⟩ := e
    have hk : k ≠ bc := h (k, v) (List.mem_cons_self _ _)
    rw [bcdInsert, if_neg hk, ih (fun e he => h e (List.mem_cons_of_mem _ he)),
      List.cons_append]

theorem bcdInsert_found (bc : Nat) (v : List Tup) (tail : List (Nat × List Tup))
    (t : Tup) :
    ∀ done : List (Nat × List Tup), (∀ e ∈ done, e.1 ≠ bc) →
      bcdInsert (done ++ (bc, v) :: tail) bc t = done ++ (bc, v ++ [t]) :: tail := by
  intro done
  induction done with
  | nil => intro _; rw [List.nil_append, bcdInsert, if_pos rfl, List.nil_append]
  | cons e rest ih =>
    intro h
    obtain ⟨k, w⟩ := e
    have hk : k ≠ bc := h (k, w) (List.mem_cons_self _ _)
    rw [List.cons_append, bcdInsert, if_neg hk,
      ih (fun e he => h e (List.mem_cons_of_mem _ he)), List.cons_append]

theorem insertAll_cons (acc : List (Nat × List Tup)) (p : Nat × Tup)
    (ps : List (Nat × Tup)) :
    insertAll acc (p :: ps) = insertAll (bcdInsert acc p.1 p.2) ps := rfl

theorem insertAll_append (acc : List (Nat × List Tup)) (l₁ l₂ : List (Nat × Tup)) :
    insertAll acc (l₁ ++ l₂) = insertAll (insertAll acc l₁) l₂ := by
  simp [insertAll, List.foldl_append]

theorem insertAll_same_key (bc : Nat) (ts : List Tup) :
    ∀ done v, (∀ e ∈ done, e.1 ≠ bc) →
      insertAll (done ++ [(bc, v)]) (ts.map (fun t => (bc, t)))
        = done ++ [(bc, v ++ ts)] := by
  induction ts with
  | nil =>
    intro done v _
    simp [insertAll]
  | cons t ts ih =>
    intro done v h
    rw [List.map_cons, insertAll_cons]
    have hins : bcdInsert (done ++ [(bc, v)]) bc t = done ++ [(bc, v ++ [t])] :=
      bcdInsert_found bc v [] t done h
    rw [hins, ih done (v ++ [t]) h, List.append_assoc, List.singleton_append]

theorem insertAll_pairsOf (bcd : List (Nat × List Tup)) :
    ∀ acc, (∀ e ∈ acc, ∀ e2 ∈ bcd, e.1 ≠ e2.1) →
      (bcd.map Prod.fst).Nodup →
      (∀ e ∈ bcd, e.2 ≠ []) →
      insertAll acc (pairsOf bcd) = acc ++ bcd := by
  induction bcd with
  | nil =>
    intro acc _ _ _
    simp [pairsOf, insertAll]
  | cons e rest ih =>
    obtain ⟨bc, ts⟩ := e
    intro acc hdisj hnd hne
    have hts : ts ≠ [] := hne (bc, ts) (List.mem_cons_self _ _)
    obtain ⟨t, ts2, rfl⟩ : ∃ t ts2, ts = t :: ts2 := by
      cases ts with
      | nil => exact absurd rfl hts
      | cons a b => exact ⟨a, b, rfl⟩
    have hukeys : ∀ e ∈ acc, e.1 ≠ bc :=
      fun e he => hdisj e he (bc, t :: ts2) (List.mem_cons_self _ _)
    rw [List.map_cons] at hnd
    obtain ⟨hbc_not, hnd2⟩ := List.nodup_cons.mp hnd
    rw [pairsOf, List.map_cons, List.cons_append, insertAll_cons,
      bcdInsert_new bc t acc hukeys, insertAll_append,
      insertAll_same_key bc ts2 acc [t] hukeys]
    have hacc2 : ∀ e ∈ acc ++ [(bc, [t] ++ ts2)], ∀ e2 ∈ rest, e.1 ≠ e2.1 := by
      intro e he e2 he2
      rcases List.mem_append.mp he with h | h
      · exact hdisj e h e2 (List.mem_cons_of_mem _ he2)
      · have heq : e = (bc, [t] ++ ts2) := List.mem_singleton.mp h
        subst heq
        intro hcon
        have hmem : e2.1 ∈ rest.map Prod.fst := List.mem_map_of_mem Prod.fst he2
        rw [← hcon] at hmem
        exact hbc_not hmem
    rw [ih (acc ++ [(bc, [t] ++ ts2)]) hacc2 hnd2
      (fun e he => hne e (List.mem_cons_of_mem _ he))]
    rw [List.append_assoc, List.singleton_append, List.singleton_append]

theorem bcdValue_insert (k bc : Nat) (t : Tup) :
    ∀ acc : List (Nat × List Tup),
      bcdValue (bcdInsert acc k t) bc
        = if k = bc then bcdValue acc bc ++ [t] else bcdValue acc bc := by
  intro acc
  induction acc with
  | nil =>
    by_cases h : k = bc
    · subst h
      simp [bcdInsert, bcdValue]
    · simp [bcdInsert, bcdValue, h]
  | cons e rest ih =>
    obtain ⟨k0, v⟩ := e
    by_cases h0 : k0 = k
    · subst h0
      by_cases hb : k0 = bc
      · subst hb
        simp [bcdInsert, bcdValue]
      · simp [bcdInsert, bcdValue, hb]
    · by_cases hb : k0 = bc
      · have hkn : ¬k = bc := fun hh => h0 (hb.trans hh.symm)
        have hbk : ¬bc = k := fun hh => hkn hh.symm
        simp [bcdInsert, bcdValue, h0, hb, hkn, hbk]
      · simp [bcdInsert, bcdValue, h0, hb, ih]

theorem bcdValue_insertAll (ps : List (Nat × Tup)) :
    ∀ acc bc, bcdValue (insertAll acc ps) bc
      = bcdValue acc bc ++ (ps.filter (fun p => p.1 == bc)).map Prod.snd := by
  induction ps with
  | nil =>
    intro acc bc
    simp [insertAll]
  | cons p ps ih =>
    intro acc bc
    rw [insertAll_cons, ih, bcdValue_insert, List.filter_cons]
    by_cases h : p.1 = bc
    · rw [if_pos h]
      simp only [h, beq_self_eq_true, if_true, List.map_cons]
      rw [List.append_assoc, List.singleton_append]
    · rw [if_neg h]
      have hb : (p.1 == bc) = false := beq_eq_false_iff_ne.mpr h
      simp [hb]

theorem writeRecords_eq (bc : Nat) (ts : List Tup)
    (h : ∀ t ∈ ts, TupOk (bc, t)) :
    writeRecords bc ts = some (packStream (ts.map (fun t => (bc, t)))) := by
  induction ts with
  | nil => rfl
  | cons t ts ih =>
    have hok : TupOk (bc, t) := h t (List.mem_cons_self t ts)
    have hpk : packRecord bc t = some (packBytes bc t) := by
      rw [packRecord, if_pos]
      · rfl
      · exact hok
    have hih := ih (fun q hq => h q (List.mem_cons_of_mem t hq))
    simp [writeRecords, hpk, hih, packStream]

theorem writeBody_eq (bcd : List (Nat × List Tup))
    (h : ∀ e ∈ bcd, ∀ t ∈ e.2, TupOk (e.1, t)) :
    writeBody bcd = some (packStream (pairsOf bcd)) := by
  induction bcd with
  | nil => rfl
  | cons e rest ih =>
    obtain ⟨bc, ts⟩ := e
    have h1 : writeRecords bc ts = some (packStream (ts.map (fun t => (bc, t)))) :=
      writeRecords_eq bc ts (fun t ht => h (bc, ts) (List.mem_cons_self _ _) t ht)
    have h2 := ih (fun e he t ht => h e (List.mem_cons_of_mem _ he) t ht)
    simp [writeBody, h1, h2, pairsOf, packStream_append]

theorem pairsOf_TupOk (bcd : List (Nat × List Tup))
    (h : ∀ e ∈ bcd, ∀ t ∈ e.2, TupOk (e.1, t)) :
    ∀ p ∈ pairsOf bcd, TupOk p := by
  induction bcd with
  | nil =>
    intro p hp
    simp [pairsOf] at hp
  | cons e rest ih =>
    intro p hp
    obtain ⟨bc, ts⟩ := e
    rw [pairsOf] at hp
    rcases List.mem_append.mp hp with h1 | h1
    · obtain ⟨t, ht, rfl⟩ := List.mem_map.mp h1
      exact h (bc, ts) (List.mem_cons_self _ _) t ht
    · exact ih (fun e he t ht => h e (List.mem_cons_of_mem _ he) t ht) p h1

theorem parseHeader_wire (st : BUSFIle) (v b u : Nat) (txt body : List Nat)
    (hv : v < 2 ^ 32) (hb : b < 2 ^ 32) (hu : u < 2 ^ 32)
    (ht : txt.length < 2 ^ 32) :
    st.parseHeader (busMagic ++ (toLE 4 v ++ (toLE 4 b ++ (toLE 4 u
        ++ (toLE 4 txt.length ++ (txt ++ body))))))
      = some ({ st with format := Format.bus, version := v, bclen := b,
                        umilen := u, textlen := txt.length, text := txt },
          body) := by
  have hm4 : busMagic.length = 4 := rfl
  have l4 : (toLE 4 v).length = 4 := toLE_length 4 v
  have hR : (toLE 4 v ++ (toLE 4 b ++ (toLE 4 u
      ++ (toLE 4 txt.length ++ (txt ++ body))))).length
      = 16 + (txt.length + body.length) := by
    simp [List.length_append, toLE_length]
    ring
  have hfull : (busMagic ++ (toLE 4 v ++ (toLE 4 b ++ (toLE 4 u
      ++ (toLE 4 txt.length ++ (txt ++ body)))))).length
      = 4 + (16 + (txt.length + body.length)) := by
    rw [List.length_append, hm4, hR]
  have e0 : (busMagic ++ (toLE 4 v ++ (toLE 4 b ++ (toLE 4 u
      ++ (toLE 4 txt.length ++ (txt ++ body)))))).take 4 = busMagic :=
    take_append_len hm4
  have e1 : (busMagic ++ (toLE 4 v ++ (toLE 4 b ++ (toLE 4 u
      ++ (toLE 4 txt.length ++ (txt ++ body)))))).drop 4
      = toLE 4 v ++ (toLE 4 b ++ (toLE 4 u ++ (toLE 4 txt.length
        ++ (txt ++ body)))) := drop_append_len hm4
  have e2 : (toLE 4 v ++ (toLE 4 b ++ (toLE 4 u ++ (toLE 4 txt.length
      ++ (txt ++ body))))).take 4 = toLE 4 v := take_append_len l4
  have e3 : (toLE 4 v ++ (toLE 4 b ++ (toLE 4 u ++ (toLE 4 txt.length
      ++ (txt ++ body))))).drop 4
      = toLE 4 b ++ (toLE 4 u ++ (toLE 4 txt.length ++ (txt ++ body))) :=
    drop_append_len l4
  have e4 : (toLE 4 b ++ (toLE 4 u ++ (toLE 4 txt.length
      ++ (txt ++ body)))).take 4 = toLE 4 b := take_append_len (toLE_length 4 b)
  have e5 : (toLE 4 b ++ (toLE 4 u ++ (toLE 4 txt.length
      ++ (txt ++ body)))).drop 4
      = toLE 4 u ++ (toLE 4 txt.length ++ (txt ++ body)) :=
    drop_append_len (toLE_length 4 b)
  have e8 : (toLE 4 v ++ (toLE 4 b ++ (toLE 4 u ++ (toLE 4 txt.length
      ++ (txt ++ body))))).drop 8
      = toLE 4 u ++ (toLE 4 txt.length ++ (txt ++ body)) := by
    rw [show (8 : Nat) = 4 + 4 from rfl, ← List.drop_drop, e3, e5]
  have e6 : (toLE 4 u ++ (toLE 4 txt.length ++ (txt ++ body))).take 4
      = toLE 4 u := take_append_len (toLE_length 4 u)
  have e7 : (toLE 4 u ++ (toLE 4 txt.length ++ (txt ++ body))).drop 4
      = toLE 4 txt.length ++ (txt ++ body) := drop_append_len (toLE_length 4 u)
  have e12 : (toLE 4 v ++ (toLE 4 b ++ (toLE 4 u ++ (toLE 4 txt.length
      ++ (txt ++ body))))).drop 12
      = toLE 4 txt.length ++ (txt ++ body) := by
    rw [show (12 : Nat) = 8 + 4 from rfl, ← List.drop_drop, e8, e7]
  have e9 : (toLE 4 txt.length ++ (txt ++ body)).take 4 = toLE 4 txt.length :=
    take_append_len (toLE_length 4 txt.length)
  have e10 : (toLE 4 txt.length ++ (txt ++ body)).drop 4 = txt ++ body :=
    drop_append_len (toLE_length 4 txt.length)
  have e16 : (toLE 4 v ++ (toLE 4 b ++ (toLE 4 u ++ (toLE 4 txt.length
      ++ (txt ++ body))))).drop 16
      = txt ++ body := by
    rw [show (16 : Nat) = 12 + 4 from rfl, ← List.drop_drop, e12, e10]
  have etl : fromLE (toLE 4 txt.length) = txt.length :=
    fromLE_toLE 4 txt.length (by rw [pow_256_4]; exact ht)
  have etake : (txt ++ body).take txt.length = txt := take_append_len rfl
  have edrop : (txt ++ body).drop txt.length = body := drop_append_len rfl
  rw [BUSFIle.parseHeader]
  rw [if_neg (by rw [hfull]; omega)]
  rw [e0, if_pos rfl, e1, e12, e9, etl, e16]
  rw [if_neg (by rw [hR]; omega)]
  rw [if_neg (by rw [List.length_append]; omega)]
  rw [e2, e3, e4, e8, e6, etake, edrop]
  rw [fromLE_toLE 4 v (by rw [pow_256_4]; exact hv),
      fromLE_toLE 4 b (by rw [pow_256_4]; exact hb),
      fromLE_toLE 4 u (by rw [pow_256_4]; exact hu)]

theorem read_eq_of_parseHeader (file : List Nat) (st1 : BUSFIle) (rest : List Nat)
    (h : BUSFIle.init.parseHeader file = some (st1, rest)) :
    BUSFIle.read file
      = if st1.format = Format.bus then st1.parseBUS rest else some st1 := by
  unfold BUSFIle.read
  rw [h]

/- ------------------------------------------------------------------
   Claims about the container codec
   ------------------------------------------------------------------ -/

/-- Claim C4: a body stream whose byte count is not a multiple of 32 makes
parseBUS fail (the short final unpack raises struct.error, the truncated
record condition) rather than silently dropping or misdecoding the partial
final block, and a stream whose byte count is a multiple of 32 parses
without such an error. -/
theorem parseBUS_truncation (st : BUSFIle) (inf : List Nat) :
    (inf.length % 32 ≠ 0 → st.parseBUS inf = none)
      ∧ (inf.length % 32 = 0 → ∃ st2, st.parseBUS inf = some st2) :=
  parseBUSLoop_mod32 inf.length inf
    { st with n_entries := st.n_entries + 1 } (le_refl _)

/-- Concrete checks of claim C4: a 20-byte body fails, a 64-byte body
parses. -/
theorem parseBUS_truncation_checks :
    BUSFIle.init.parseBUS (List.replicate 20 0) = none
      ∧ ∃ st2, BUSFIle.init.parseBUS (List.replicate 64 0) = some st2 :=
  ⟨(parseBUS_truncation BUSFIle.init (List.replicate 20 0)).1 (by decide),
   (parseBUS_truncation BUSFIle.init (List.replicate 64 0)).2 (by decide)⟩

/-- Claim C5: parsing a body stream of well-formed 32-byte records groups
the decoded (umi, ec, count, flag) tuples by barcode in stream order: for
every barcode, the stored sequence is exactly the subsequence of decoded
tuples carrying that barcode, in the order they occurred (so a new barcode
opens a singleton sequence and later records with the same barcode are
appended behind it). -/
theorem parseBUS_groups (recs : List (Nat × Tup)) (hok : ∀ p ∈ recs, TupOk p) :
    ∃ st2, BUSFIle.init.parseBUS (packStream recs) = some st2
      ∧ ∀ bc, bcdValue st2.bcd bc
          = (recs.filter (fun p => p.1 == bc)).map Prod.snd := by
  refine ⟨_, parseBUS_packStream BUSFIle.init recs hok, ?_⟩
  intro bc
  show bcdValue (insertAll BUSFIle.init.bcd recs) bc = _
  rw [bcdValue_insertAll recs BUSFIle.init.bcd bc]
  simp [BUSFIle.init, bcdValue]

/-- Concrete check of claim C5 with two records sharing barcode 7. -/
theorem parseBUS_groups_check :
    ∃ st2, BUSFIle.init.parseBUS
        (packStream [(7, (1, 2, 3, 4)), (7, (5, 6, 7, 8))]) = some st2
      ∧ ∀ bc, bcdValue st2.bcd bc
          = (([(7, (1, 2, 3, 4)), (7, (5, 6, 7, 8))].filter
              (fun p => p.1 == bc)).map Prod.snd) :=
  parseBUS_groups [(7, (1, 2, 3, 4)), (7, (5, 6, 7, 8))] (by decide)

/-- Claim C6: a file of at least 4 bytes whose first 4 bytes differ from
the BUS magic reads into a container whose format attribute holds those
raw magic bytes, with every other attribute untouched from init (so no
header field is parsed, the body is never parsed and the record map stays
empty), and the result is an ordinary return value, not an error. -/
theorem read_unknown_magic (file : List Nat) (h4 : 4 ≤ file.length)
    (hm : file.take 4 ≠ busMagic) :
    BUSFIle.read file
      = some { BUSFIle.init with format := Format.raw (file.take 4) } := by
  have hph : BUSFIle.init.parseHeader file
      = some ({ BUSFIle.init with format := Format.raw (file.take 4) },
          file.drop 4) := by
    rw [BUSFIle.parseHeader, if_neg (by omega), if_neg hm]
  rw [read_eq_of_parseHeader file _ _ hph]
  rw [if_neg (fun hcon => Format.noConfusion hcon)]

/-- Concrete check of claim C6 on the file XXXX. -/
theorem read_unknown_magic_check :
    BUSFIle.read [88, 88, 88, 88]
      = some { BUSFIle.init with
               format := Format.raw ([88, 88, 88, 88].take 4) } :=
  read_unknown_magic [88, 88, 88, 88] (by decide) (by decide)

/-- Claim C7 is contradicted by the code: the entry counter counts read()
calls, not well-formed blocks, so a body of k records leaves n_entries at
k + 1: the empty body (k = 0) yields 1, one 32-byte record yields 2. -/
theorem n_entries_counts_reads :
    (BUSFIle.init.parseBUS []).map BUSFIle.n_entries = some 1
      ∧ (BUSFIle.init.parseBUS (packStream [(0, (0, 0, 0, 0))])).map
          BUSFIle.n_entries = some 2 := by
  decide

/-- Claim C9: writeHeader emits exactly the magic tag, then version,
bclen, umilen and the byte length of the text payload as little-endian
u32, then the text verbatim; the length field is recomputed from the text
itself, so it is correct whatever the stored textlen attribute holds (no
hypothesis below relates st.textlen to anything). -/
theorem writeHeader_layout (st : BUSFIle)
    (hv : st.version < 2 ^ 32) (hb : st.bclen < 2 ^ 32)
    (hu : st.umilen < 2 ^ 32) (ht : st.text.length < 2 ^ 32) :
    ∃ out, st.writeHeader = some out
      ∧ out = busMagic ++ toLE 4 st.version ++ toLE 4 st.bclen
          ++ toLE 4 st.umilen ++ toLE 4 st.text.length ++ st.text
      ∧ fromLE ((out.drop 16).take 4) = st.text.length
      ∧ out.drop 20 = st.text := by
  have hm4 : busMagic.length = 4 := rfl
  have d4 : (busMagic ++ (toLE 4 st.version ++ (toLE 4 st.bclen
      ++ (toLE 4 st.umilen ++ (toLE 4 st.text.length ++ st.text))))).drop 4
      = toLE 4 st.version ++ (toLE 4 st.bclen ++ (toLE 4 st.umilen
        ++ (toLE 4 st.text.length ++ st.text))) := drop_append_len hm4
  have d8 : (toLE 4 st.version ++ (toLE 4 st.bclen ++ (toLE 4 st.umilen
      ++ (toLE 4 st.text.length ++ st.text)))).drop 4
      = toLE 4 st.bclen ++ (toLE 4 st.umilen ++ (toLE 4 st.text.length
        ++ st.text)) := drop_append_len (toLE_length 4 st.version)
  have d12 : (toLE 4 st.bclen ++ (toLE 4 st.umilen ++ (toLE 4 st.text.length
      ++ st.text))).drop 4
      = toLE 4 st.umilen ++ (toLE 4 st.text.length ++ st.text) :=
    drop_append_len (toLE_length 4 st.bclen)
  have d16 : (toLE 4 st.umilen ++ (toLE 4 st.text.length ++ st.text)).drop 4
      = toLE 4 st.text.length ++ st.text :=
    drop_append_len (toLE_length 4 st.umilen)
  have ddrop16 : (busMagic ++ (toLE 4 st.version ++ (toLE 4 st.bclen
      ++ (toLE 4 st.umilen ++ (toLE 4 st.text.length ++ st.text))))).drop 16
      = toLE 4 st.text.length ++ st.text := by
    rw [show (16 : Nat) = 4 + 4 + 4 + 4 from rfl]
    rw [show (4 : Nat) + 4 + 4 + 4 = (4 + 4 + 4) + 4 from rfl, ← List.drop_drop]
    rw [show (4 : Nat) + 4 + 4 = (4 + 4) + 4 from rfl, ← List.drop_drop]
    rw [show (4 : Nat) + 4 = 4 + 4 from rfl, ← List.drop_drop]
    rw [d4, d8, d12, d16]
  have ddrop20 : (busMagic ++ (toLE 4 st.version ++ (toLE 4 st.bclen
      ++ (toLE 4 st.umilen ++ (toLE 4 st.text.length ++ st.text))))).drop 20
      = st.text := by
    rw [show (20 : Nat) = 16 + 4 from rfl, ← List.drop_drop, ddrop16,
      drop_append_len (toLE_length 4 st.text.length)]
  have htk : (toLE 4 st.text.length ++ st.text).take 4 = toLE 4 st.text.length :=
    take_append_len (toLE_length 4 st.text.length)
  have hout : st.writeHeader = some (busMagic ++ toLE 4 st.version
      ++ toLE 4 st.bclen ++ toLE 4 st.umilen ++ toLE 4 st.text.length
      ++ st.text) := by
    rw [BUSFIle.writeHeader, if_pos ⟨hv, hb, hu, ht⟩]
  refine ⟨_, hout, rfl, ?_, ?_⟩
  · simp only [List.append_assoc]
    rw [ddrop16, htk, fromLE_toLE 4 st.text.length (by rw [pow_256_4]; exact ht)]
  · simp only [List.append_assoc]
    rw [ddrop20]

/-- Concrete check of claim C9 with a stale textlen of 999 against a
3-byte text: the emitted length field still reads back 3. -/
theorem writeHeader_layout_check :
    ∃ out,
      ({ BUSFIle.init with
          text := [1, 2, 3], textlen := 999, version := 1, bclen := 2,
          umilen := 3 } : BUSFIle).writeHeader = some out
      ∧ out = busMagic ++ toLE 4 1 ++ toLE 4 2 ++ toLE 4 3 ++ toLE 4 3
          ++ [1, 2, 3]
      ∧ fromLE ((out.drop 16).take 4) = 3
      ∧ out.drop 20 = [1, 2, 3] :=
  writeHeader_layout _ (by decide) (by decide) (by decide) (by decide)

set_option synthInstance.maxSize 1000 in
/-- Claim C1, counterexample: a container whose dict maps barcode 0 to an
empty tuple list writes a body with no record for that key, so reading
the file back yields an empty record map instead of the original one. -/
theorem write_read_changes_empty_group :
    ((BUSFIle.write { BUSFIle.init with bcd := [(0, [])] }).bind
        BUSFIle.read).map BUSFIle.bcd = some []
      ∧ ([] : List (Nat × List Tup)) ≠ [(0, [])] := by
  decide

/-- Claim C1 (amended with the well-formedness every container produced
by the reader has: header fields in u32 range, record fields in their
packed ranges, distinct barcode keys and a nonempty tuple sequence per
key): writing a container and reading the written bytes back reproduces
version, bclen, umilen, text and the grouped record map exactly. -/
theorem write_read_roundtrip (st : BUSFIle)
    (hv : st.version < 2 ^ 32) (hb : st.bclen < 2 ^ 32)
    (hu : st.umilen < 2 ^ 32) (ht : st.text.length < 2 ^ 32)
    (hrec : ∀ e ∈ st.bcd, ∀ t ∈ e.2, TupOk (e.1, t))
    (hkeys : (st.bcd.map Prod.fst).Nodup)
    (hne : ∀ e ∈ st.bcd, e.2 ≠ []) :
    ∃ bytes st2, st.write = some bytes ∧ BUSFIle.read bytes = some st2
      ∧ st2.version = st.version ∧ st2.bclen = st.bclen
      ∧ st2.umilen = st.umilen ∧ st2.text = st.text ∧ st2.bcd = st.bcd := by
  have hok : ∀ p ∈ pairsOf st.bcd, TupOk p := pairsOf_TupOk st.bcd hrec
  have hins : insertAll [] (pairsOf st.bcd) = [] ++ st.bcd :=
    insertAll_pairsOf st.bcd []
      (by intro e he; simp at he) hkeys hne
  rw [List.nil_append] at hins
  have hwh : st.writeHeader = some (busMagic ++ toLE 4 st.version
      ++ toLE 4 st.bclen ++ toLE 4 st.umilen ++ toLE 4 st.text.length
      ++ st.text) := by
    rw [BUSFIle.writeHeader, if_pos ⟨hv, hb, hu, ht⟩]
  have hwb : st.writeBUS = some (packStream (pairsOf st.bcd)) :=
    writeBody_eq st.bcd hrec
  have hwrite : st.write = some ((busMagic ++ toLE 4 st.version
      ++ toLE 4 st.bclen ++ toLE 4 st.umilen ++ toLE 4 st.text.length
      ++ st.text) ++ packStream (pairsOf st.bcd)) := by
    simp [BUSFIle.write, hwh, hwb]
  have hassoc : (busMagic ++ toLE 4 st.version ++ toLE 4 st.bclen
      ++ toLE 4 st.umilen ++ toLE 4 st.text.length ++ st.text)
        ++ packStream (pairsOf st.bcd)
      = busMagic ++ (toLE 4 st.version ++ (toLE 4 st.bclen
        ++ (toLE 4 st.umilen ++ (toLE 4 st.text.length
          ++ (st.text ++ packStream (pairsOf st.bcd)))))) := by
    simp [List.append_assoc]
  have hph := parseHeader_wire BUSFIle.init st.version st.bclen st.umilen
    st.text (packStream (pairsOf st.bcd)) hv hb hu ht
  have hbody := parseBUS_packStream
    { BUSFIle.init with
        format := Format.bus, version := st.version, bclen := st.bclen,
        umilen := st.umilen, textlen := st.text.length, text := st.text }
    (pairsOf st.bcd) hok
  have hread : BUSFIle.read ((busMagic ++ toLE 4 st.version
      ++ toLE 4 st.bclen ++ toLE 4 st.umilen ++ toLE 4 st.text.length
      ++ st.text) ++ packStream (pairsOf st.bcd))
      = some { BUSFIle.init with
                format := Format.bus, version := st.version,
                bclen := st.bclen, umilen := st.umilen,
                textlen := st.text.length, text := st.text, bcd := st.bcd,
                n_entries := 0 + 1 + (pairsOf st.bcd).length } := by
    rw [hassoc, read_eq_of_parseHeader _ _ _ hph, if_pos rfl, hbody]
    dsimp only [BUSFIle.init]
    rw [hins]
  exact ⟨_, _, hwrite, hread, rfl, rfl, rfl, rfl, rfl⟩

/-- Concrete check of the amended claim C1 on a two-barcode container. -/
theorem write_read_roundtrip_check :
    ∃ bytes st2,
      ({ BUSFIle.init with
          version := 1, bclen := 16, umilen := 12, text := [65, 66],
          bcd := [(5, [(9, 2, 1, 0)]), (7, [(1, 2, 3, 4), (1, 9, 9, 9)])] }
        : BUSFIle).write = some bytes
      ∧ BUSFIle.read bytes = some st2
      ∧ st2.version = 1 ∧ st2.bclen = 16 ∧ st2.umilen = 12
      ∧ st2.text = [65, 66]
      ∧ st2.bcd = [(5, [(9, 2, 1, 0)]), (7, [(1, 2, 3, 4), (1, 9, 9, 9)])] :=
  write_read_roundtrip _ (by decide) (by decide) (by decide) (by decide)
    (by decide) (by decide) (by decide)
